import Mathlib

/-!
Shallow embedding of the Wahaha membership-sync scripts
(`src/index.js`, `src/unnamed/part_000`).  The repository holds three
iterations of the same batch job; the definitions below translate the
relevant functions of each cited iteration.  JavaScript strings are
modelled as Lean `String` (a wrapper around `List Char`); JS `trim` is
modelled over the ASCII whitespace characters that occur in CSV text.
-/

namespace Waha

/-- ASCII whitespace, modelling the characters JS `String.prototype.trim`
strips in the data handled by this program. -/
def isWS (c : Char) : Bool :=
  c = ' ' || c = '\t' || c = '\n' || c = '\r' || c = '\x0b' || c = '\x0c'

/-- JS `s.trim()`: drop whitespace from both ends. -/
def jsTrim (s : String) : String :=
  ⟨((s.data.dropWhile isWS).reverse.dropWhile isWS).reverse⟩

/-- JS string truthiness: a string is truthy iff non-empty. -/
def truthy (s : String) : Bool := s ≠ ""

/-- JS `str.replace(/[^\d+]/g, '')`: keep only digits and `+`. -/
def stripNonPhone (s : String) : String :=
  ⟨s.data.filter (fun c => c.isDigit || c = '+')⟩

/-- JS `s.startsWith(pre)`, stated on the character lists so that the
kernel can evaluate it. -/
def jsStartsWith (s pre : String) : Bool :=
  pre.data.isPrefixOf s.data

/-- JS `s.slice(n)` for a non-negative index. -/
def jsDrop (s : String) (n : Nat) : String :=
  ⟨s.data.drop n⟩

/-- The test `/^\+62\d{8,13}$/` from `cleanPhoneNumber`
(src/unnamed/part_000, line 275): `+62` followed by 8–13 digits. -/
def isCanonicalPhone (s : String) : Bool :=
  match s.data with
  | '+' :: '6' :: '2' :: rest =>
      rest.all Char.isDigit && decide (8 ≤ rest.length) && decide (rest.length ≤ 13)
  | _ => false

/-- `cleanPhoneNumber` (src/unnamed/part_000, lines 250–290): strip
non-phone characters, apply the Indonesian prefix heuristics, validate
against `+62\d{8,13}`, with one 10–13-digit fallback, else return `""`. -/
def cleanPhoneNumber (phone : String) : String :=
  if jsTrim phone = "" then ""
  else
    let cleaned := stripNonPhone phone
    if cleaned = "" then ""
    else
      let cleaned :=
        if jsStartsWith cleaned "0" then "+62" ++ (jsDrop cleaned 1)
        else if jsStartsWith cleaned "62" && !jsStartsWith cleaned "+" then "+" ++ cleaned
        else if jsStartsWith cleaned "8" && !jsStartsWith cleaned "+" then "+62" ++ cleaned
        else cleaned
      if isCanonicalPhone cleaned then cleaned
      else if decide (10 ≤ cleaned.length) && decide (cleaned.length ≤ 13)
              && !jsStartsWith cleaned "+" then
        let fixed := "+62" ++ cleaned
        if isCanonicalPhone fixed then fixed else ""
      else ""

/-- State of the CSV line scanner: fields already emitted, the field
being accumulated, and whether the scanner is inside a quoted region. -/
structure CsvState where
  result : List String
  field : String
  inQuote : Bool
deriving DecidableEq, Repr

/-- The character loop of `parseCSVLine` (src/index.js, lines 294–311):
a `""` pair inside quotes emits a literal quote, a lone quote toggles
the quote flag, a comma outside quotes ends the current field.  When a
`""` pair is met outside quotes, the first quote merely toggles the flag
and the second is examined with its own lookahead; that step is unfolded
here so the recursion is structural. -/
def parseCharsGo : List Char → CsvState → CsvState
  | [], st => st
  | '"' :: '"' :: rest2, st =>
      if st.inQuote then parseCharsGo rest2 { st with field := st.field.push '"' }
      else
        match rest2 with
        | '"' :: rest3 => parseCharsGo rest3 { st with field := st.field.push '"', inQuote := true }
        | r => parseCharsGo r { st with inQuote := false }
  | '"' :: rest, st => parseCharsGo rest { st with inQuote := !st.inQuote }
  | ',' :: rest, st =>
      if st.inQuote then parseCharsGo rest { st with field := st.field.push ',' }
      else parseCharsGo rest { result := st.result ++ [st.field], field := "", inQuote := st.inQuote }
  | c :: rest, st => parseCharsGo rest { st with field := st.field.push c }

/-- `parseCSVLine` (src/index.js, lines 289–314): scan the line, push the
final field, and trim every field.  The per-line loops of the sibling
variants (src/unnamed/part_000, lines 151–165 and 216–240) trim each
field as it is pushed and produce the same output. -/
def parseCSVLine (line : String) : List String :=
  let st := parseCharsGo line.data ⟨[], "", false⟩
  (st.result ++ [st.field]).map jsTrim

/-- Number of comma characters occurring outside quoted regions of a
line, tracking the quote state exactly as the scanner does. -/
def commasOutside : List Char → Bool → Nat
  | [], _ => 0
  | '"' :: '"' :: rest2, inQ =>
      if inQ then commasOutside rest2 inQ
      else
        match rest2 with
        | '"' :: rest3 => commasOutside rest3 true
        | r => commasOutside r false
  | '"' :: rest, inQ => commasOutside rest (!inQ)
  | ',' :: rest, inQ => (if inQ then 0 else 1) + commasOutside rest inQ
  | _ :: rest, inQ => commasOutside rest inQ

/-- JS `l.includes(pat)` on character lists (substring containment). -/
def hasSubstr : List Char → List Char → Bool
  | l, pat =>
    if pat.isPrefixOf l then true
    else match l with
      | [] => false
      | _ :: t => hasSubstr t pat

/-- JS `s.toLowerCase()` (ASCII range, which covers the header keywords). -/
def jsToLower (s : String) : String := ⟨s.data.map Char.toLower⟩

/-- A normalized member row: `{ id, name, phone }` as pushed by the row
loops of all three variants. -/
structure MemberRecord where
  id : String
  name : String
  phone : String
deriving DecidableEq, Repr

/-- `findColumn` (src/unnamed/part_000, lines 337–345): for each pattern
in order, the first header whose lowercase text contains the lowercase
pattern; `none` models the `-1` sentinel. -/
def findColumn (header : List String) (patterns : List String) : Option Nat :=
  match patterns with
  | [] => none
  | p :: rest =>
      match header.findIdx? (fun h => truthy h && hasSubstr (jsToLower h).data (jsToLower p).data) with
      | some i => some i
      | none => findColumn header rest

/-- The resolved column mapping `col` (src/unnamed/part_000, lines 347–353). -/
structure ColMap where
  id : Option Nat
  title : Option Nat
  firstName : Option Nat
  lastName : Option Nat
  phone : Option Nat
deriving DecidableEq, Repr

/-- Building `col` from the header row (src/unnamed/part_000, lines 347–353). -/
def buildColMap (header : List String) : ColMap where
  id := findColumn header ["membershipid", "member", "id"]
  title := findColumn header ["mtitle", "title"]
  firstName := findColumn header ["firstname", "first", "name"]
  lastName := findColumn header ["lastname", "last"]
  phone := findColumn header ["telephone", "phone", "mobile", "mmobphone"]

/-- JS `cols[i]?.trim()` with `undefined` collapsing to the empty string
(the composed-name filter and `cleanPhoneNumber` treat both as falsy). -/
def cellTrim (cols : List String) (oi : Option Nat) : String :=
  match oi with
  | some i => jsTrim ((cols.get? i).getD "")
  | none => ""

/-- One iteration of the heuristic row loop (src/unnamed/part_000, lines
364–399): fewer than 4 cells skips the row; an empty or missing
identifier cell falls back to `MEM<i>`; the name is the space-joined
non-empty parts of title/first/last; a row with empty composed name is
skipped; the phone is `cleanPhoneNumber` of the phone cell. -/
def buildRow (col : ColMap) (i : Nat) (cols : List String) : Option MemberRecord :=
  if cols.length < 4 then none
  else
    let id :=
      match col.id with
      | some ci =>
          match cols.get? ci with
          | some v => if truthy v then jsTrim v else "MEM" ++ toString i
          | none => "MEM" ++ toString i
      | none => "MEM" ++ toString i
    let title := cellTrim cols col.title
    let firstName := cellTrim cols col.firstName
    let lastName := cellTrim cols col.lastName
    let fullName := jsTrim (String.intercalate " " (([title, firstName, lastName]).filter truthy))
    let phoneRaw := cellTrim cols col.phone
    let phone := cleanPhoneNumber phoneRaw
    if fullName = "" then none
    else some ⟨id, fullName, phone⟩

/-- The inline phone cleaning of the first variant (src/index.js, lines
32–39): strip, then prefix heuristics, with no validation. -/
def cleanPhoneInlineV1 (phone : String) : String :=
  if truthy phone then
    let p := stripNonPhone phone
    if !jsStartsWith p "+" then
      if jsStartsWith p "62" then "+" ++ p
      else if jsStartsWith p "0" then "+62" ++ jsDrop p 1
      else "+62" ++ p
    else p
  else phone

/-- One iteration of the positional row loop of the first variant
(src/index.js, lines 20–45): fixed columns 0/3/4/13, a row with fewer
than 5 cells or an empty trimmed id/first/last is skipped; the produced
triple is `[name, phone, id]`. -/
def buildRowPositional (cols : List String) : Option MemberRecord :=
  if cols.length < 5 then none
  else
    let id := jsTrim ((cols.get? 0).getD "")
    let first := jsTrim ((cols.get? 3).getD "")
    let last := jsTrim ((cols.get? 4).getD "")
    let phone0 := ((cols.get? 13).map jsTrim).getD ""
    if id = "" || first = "" || last = "" then none
    else
      let phone := if truthy phone0 then cleanPhoneInlineV1 phone0 else phone0
      let name := jsTrim (first ++ " " ++ last)
      if truthy name then some ⟨id, name, phone⟩ else none

/-- A page of the remote (Notion) database: its page id (handle) and the
title text of its "Member ID" property, plus the other written
properties.  Handles are modelled as naturals. -/
structure RemoteRecord where
  handle : Nat
  memberId : Option String
  name : Option String
  phone : Option String
deriving DecidableEq, Repr

/-- The property set written for a row (src/unnamed/part_000, lines
450–466): name text, phone value or explicit null, and the Member ID
title. -/
structure Props where
  name : String
  phone : Option String
  memberId : String
deriving DecidableEq, Repr

/-- A remote write call of the write phase: update keyed by an existing
page handle, or create under the configured database. -/
inductive RemoteWrite where
  | update : Nat → Props → RemoteWrite
  | create : Props → RemoteWrite
deriving DecidableEq, Repr

/-- Properties built from a member row: phone value when non-empty,
explicit null when empty (src/index.js line 68; src/unnamed/part_000
lines 100–104 and 464–465). -/
def propsFor (m : MemberRecord) : Props :=
  ⟨m.name, if m.phone = "" then none else some m.phone, m.id⟩

/-- The filtered query of the write phase (src/unnamed/part_000, lines
440–447): pages whose "Member ID" title equals the row id, `page_size: 1`. -/
def queryByMemberId (store : List RemoteRecord) (id : String) : List RemoteRecord :=
  (store.filter (fun r => r.memberId = some id)).take 1

/-- The create-vs-update decision for one row (src/unnamed/part_000,
lines 468–490): update keyed by the first matching page's handle when
the filtered query returns a result, otherwise create. -/
def decideAction (store : List RemoteRecord) (m : MemberRecord) : RemoteWrite :=
  match queryByMemberId store m.id with
  | r :: _ => .update r.handle (propsFor m)
  | [] => .create (propsFor m)

/-- The page with its properties replaced by a written property set. -/
def updatedWith (r : RemoteRecord) (p : Props) : RemoteRecord :=
  { r with memberId := some p.memberId, name := some p.name, phone := p.phone }

/-- Effect of a successful write call on the remote store.  An update
rewrites the properties of the page with the given handle; a create
appends a fresh page whose handle is the supplied counter. -/
def applyWrite (store : List RemoteRecord) (next : Nat) : RemoteWrite → List RemoteRecord × Nat
  | .update h p => (store.map (fun r => if r.handle = h then updatedWith r p else r), next)
  | .create p => (store ++ [⟨next, some p.memberId, some p.name, p.phone⟩], next + 1)

/-- 1 for a create call, 0 for an update (the `created` counter). -/
def createsOf : RemoteWrite → Nat
  | .create _ => 1
  | .update _ _ => 0

/-- The write phase over the rows in CSV order, all calls succeeding:
returns the final store, the handle counter, and the number of create
calls issued (src/unnamed/part_000, lines 437–509). -/
def runWrites : List MemberRecord → List RemoteRecord → Nat → List RemoteRecord × Nat × Nat
  | [], store, next => (store, next, 0)
  | m :: rest, store, next =>
      let a := decideAction store m
      let sn := applyWrite store next a
      let r := runWrites rest sn.1 sn.2
      (r.1, r.2.1, createsOf a + r.2.2)

/-- Remote-store well-formedness: page handles are below the fresh-handle
counter and pairwise distinct (page ids are unique in the real store). -/
def StoreWF (store : List RemoteRecord) (next : Nat) : Prop :=
  (∀ r ∈ store, r.handle < next) ∧ (store.map (fun r => r.handle)).Nodup

/-- Some page of the store carries the given Member ID title. -/
def hasId (store : List RemoteRecord) (id : String) : Prop :=
  ∃ r ∈ store, r.memberId = some id

/-- `withRetry` of the final variant (src/unnamed/part_000, lines
178–188): up to 5 attempts, a `1000 * (i + 1)` ms delay after each
failure, `null` after the fifth failure.  `fn i` is the outcome of the
`i`-th attempt; the returned list records the delays waited. -/
def withRetryGo {α : Type} (fn : Nat → Except String α) (i : Nat) (delays : List Nat) :
    Option α × List Nat :=
  if i < 5 then
    match fn i with
    | .ok a => (some a, delays)
    | .error _ => withRetryGo fn (i + 1) (delays ++ [1000 * (i + 1)])
  else (none, delays)
termination_by 5 - i

def withRetry {α : Type} (fn : Nat → Except String α) : Option α × List Nat :=
  withRetryGo fn 0 []

/-- Number of calls to the wrapped operation: one per recorded delay,
plus the successful call when there is one. -/
def numAttempts {α : Type} (r : Option α × List Nat) : Nat :=
  match r.1 with
  | some _ => r.2.length + 1
  | none => r.2.length

/-- The counters of the write phase (src/unnamed/part_000, lines 424–426). -/
structure SyncCounts where
  created : Nat
  updated : Nat
  failed : Nat
deriving DecidableEq, Repr

/-- Outcomes of the retry-wrapped remote calls for one row: the filtered
query (`none` after exhausted retries) and the update/create call. -/
structure RowOps where
  queryOutcome : Option (List RemoteRecord)
  writeOutcome : Option Unit
deriving DecidableEq, Repr

/-- One iteration of the write loop (src/unnamed/part_000, lines
437–503): a non-empty successful query takes the update path, otherwise
the create path; a `null` write result increments `failed`, a non-null
one increments `updated` or `created`. -/
def processRow (c : SyncCounts) (ops : RowOps) : SyncCounts :=
  match ops.queryOutcome with
  | some rs =>
      if rs.length > 0 then
        match ops.writeOutcome with
        | some _ => { c with updated := c.updated + 1 }
        | none => { c with failed := c.failed + 1 }
      else
        match ops.writeOutcome with
        | some _ => { c with created := c.created + 1 }
        | none => { c with failed := c.failed + 1 }
  | none =>
      match ops.writeOutcome with
      | some _ => { c with created := c.created + 1 }
      | none => { c with failed := c.failed + 1 }

def processRows (c : SyncCounts) (l : List RowOps) : SyncCounts :=
  l.foldl processRow c

/-- One contact card (src/unnamed/part_000, lines 524–526). -/
def vcardFor (name phone : String) : String :=
  "BEGIN:VCARD\nVERSION:3.0\nFN:" ++ name ++ "\nTEL:" ++ phone ++ "\nEND:VCARD"

/-- The card blocks: one per member row with truthy (non-empty) phone. -/
def vcfCards (rows : List MemberRecord) : List String :=
  (rows.filter (fun r => truthy r.phone)).map (fun r => vcardFor r.name r.phone)

/-- The .vcf payload: the cards joined with `'\n'`
(src/unnamed/part_000, lines 520–526: `withPhone.map(...).join('\n')`). -/
def vcfOf (rows : List MemberRecord) : String :=
  String.intercalate "\n" (vcfCards rows)

/-- Whether the export sends the email (src/unnamed/part_000, line 521):
only when some row has a phone and the mail credential is configured. -/
def sendsEmail (rows : List MemberRecord) (mailgunConfigured : Bool) : Bool :=
  decide ((rows.filter (fun r => truthy r.phone)).length > 0) && mailgunConfigured

/-- Tail of a separator join: the separator before each further block. -/
def newlineJoinRest (sep : String) : List String → String
  | [] => ""
  | c :: cs => sep ++ c ++ newlineJoinRest sep cs

/-- Reference join written from the spec's words "concatenated with
blank-line separation" (spec §4.5): an empty line between card blocks. -/
def blankLineJoin : List String → String
  | [] => ""
  | c :: cs => c ++ newlineJoinRest "\n\n" cs

/-- Single-newline join, the separation the code actually uses. -/
def newlineJoin : List String → String
  | [] => ""
  | c :: cs => c ++ newlineJoinRest "\n" cs

/-! Theorems.  Claim theorems are named after the behavior they settle;
auxiliary lemmas come first. -/

theorem parseCharsGo_pair (rest2 : List Char) (st : CsvState) (h : st.inQuote = true) :
    parseCharsGo ('"' :: '"' :: rest2) st = parseCharsGo rest2 { st with field := st.field.push '"' } := by
  rcases rest2 with _ | ⟨c2, r2⟩
  · rw [parseCharsGo.eq_3] <;> simp [h]
  · by_cases hc : c2 = '"'
    · subst hc
      rw [parseCharsGo.eq_2]
      simp [h]
    · rw [parseCharsGo.eq_3]
      · simp [h]
      · intro rest3 he
        injection he with h1 _
        exact hc h1

theorem commasOutside_pair (rest2 : List Char) :
    commasOutside ('"' :: '"' :: rest2) true = commasOutside rest2 true := by
  rcases rest2 with _ | ⟨c2, r2⟩
  · rw [commasOutside.eq_3] <;> simp
  · by_cases hc : c2 = '"'
    · subst hc
      rw [commasOutside.eq_2]
      simp
    · rw [commasOutside.eq_3]
      · simp
      · intro rest3 he
        injection he with h1 _
        exact hc h1

theorem commasOutside_parseCharsGo : ∀ (cs : List Char) (st : CsvState),
    (parseCharsGo cs st).result.length = st.result.length + commasOutside cs st.inQuote := by
  intro cs st
  induction cs, st using parseCharsGo.induct with
  | case1 st => simp [parseCharsGo, commasOutside]
  | case2 rest2 st h ih =>
      rw [parseCharsGo_pair rest2 st h, ih, h, commasOutside_pair]
  | case3 st h rest3 ih =>
      rw [parseCharsGo.eq_2, commasOutside.eq_2]
      simp only [Bool.not_eq_true] at h
      simp only [h, Bool.false_eq_true, if_false]
      rw [ih]
  | case4 st h r hne ih =>
      rw [parseCharsGo.eq_3 _ _ hne, commasOutside.eq_3 _ _ hne]
      simp only [Bool.not_eq_true] at h
      simp only [h, Bool.false_eq_true, if_false]
      rw [ih]
  | case5 rest st hne ih =>
      rw [parseCharsGo.eq_4 _ _ hne, commasOutside.eq_4 _ _ hne, ih]
  | case6 rest st h ih =>
      rw [parseCharsGo.eq_5, commasOutside.eq_5]
      simp only [h, if_true] at ih ⊢
      rw [ih]
      simp
  | case7 rest st h ih =>
      rw [parseCharsGo.eq_5, commasOutside.eq_5]
      simp only [Bool.not_eq_true] at h
      simp only [h, Bool.false_eq_true, if_false] at ih ⊢
      rw [ih]
      simp
      omega
  | case8 c rest st hne1 hne2 hne3 ih =>
      rw [parseCharsGo.eq_6 _ _ _ hne1 hne2 hne3, commasOutside.eq_6 _ _ _ hne1 hne2 hne3, ih]

/-- C5: the phone normalizer maps "081234567890", "6281234567890" and
"81234567890" to "+6281234567890", "abc" to the empty string, and leaves
"+6281234567890" unchanged. -/
theorem cleanPhoneNumber_examples :
    cleanPhoneNumber "081234567890" = "+6281234567890" ∧
    cleanPhoneNumber "6281234567890" = "+6281234567890" ∧
    cleanPhoneNumber "81234567890" = "+6281234567890" ∧
    cleanPhoneNumber "abc" = "" ∧
    cleanPhoneNumber "+6281234567890" = "+6281234567890" := by
  refine ⟨by decide, by decide, by decide, by decide, by decide⟩

/-- C6: the CSV line parser splits `a,"b,c",d` into exactly
`["a", "b,c", "d"]`, and parses the quoted field `"He said ""hi"""` to
the literal text `He said "hi"`. -/
theorem parseCSVLine_quoting_examples :
    parseCSVLine "a,\"b,c\",d" = ["a", "b,c", "d"] ∧
    parseCSVLine "\"He said \"\"hi\"\"\"" = ["He said \"hi\""] := by
  refine ⟨by decide, by decide⟩

/-- C10: the CSV line parser is total and returns exactly one more field
than the number of commas outside quoted regions; in particular it
always returns at least one field, and the empty line yields `[""]`. -/
theorem parseCSVLine_field_count (line : String) :
    (parseCSVLine line).length = commasOutside line.data false + 1 ∧
    1 ≤ (parseCSVLine line).length ∧
    parseCSVLine "" = [""] := by
  have h := commasOutside_parseCharsGo line.data ⟨[], "", false⟩
  refine ⟨?_, ?_, by decide⟩ <;>
    simp_all [parseCSVLine]

theorem mem_filter_memberId {store : List RemoteRecord} {id : String} {r : RemoteRecord} :
    r ∈ store.filter (fun r => r.memberId = some id) ↔ r ∈ store ∧ r.memberId = some id := by
  simp [List.mem_filter]

theorem queryByMemberId_nil {store : List RemoteRecord} {id : String}
    (h : ¬ hasId store id) : queryByMemberId store id = [] := by
  unfold queryByMemberId
  have : store.filter (fun r => r.memberId = some id) = [] := by
    rw [List.filter_eq_nil_iff]
    intro r hr
    simp only [decide_eq_true_eq]
    intro hid
    exact h ⟨r, hr, hid⟩
  rw [this]
  rfl

theorem queryByMemberId_found {store : List RemoteRecord} {id : String}
    (h : hasId store id) :
    ∃ r, r ∈ store ∧ r.memberId = some id ∧ queryByMemberId store id = [r] := by
  rcases hfil : store.filter (fun r => r.memberId = some id) with _ | ⟨r, t⟩
  · obtain ⟨r, hr, hid⟩ := h
    have : r ∈ store.filter (fun r => r.memberId = some id) :=
      mem_filter_memberId.mpr ⟨hr, hid⟩
    rw [hfil] at this
    exact absurd this (List.not_mem_nil r)
  · have hrmem : r ∈ store.filter (fun r => r.memberId = some id) := by
      rw [hfil]; exact List.mem_cons_self r t
    obtain ⟨hr, hid⟩ := mem_filter_memberId.mp hrmem
    exact ⟨r, hr, hid, by unfold queryByMemberId; rw [hfil]; rfl⟩

/-- C1: the write phase issues an update keyed by the matching page's
handle for every row whose id matches an existing remote record, and a
create under the configured database when no record matches; it never
creates on a match and never updates without one. -/
theorem writePhase_update_iff_match (store : List RemoteRecord) (m : MemberRecord) :
    (hasId store m.id →
      ∃ r ∈ store, r.memberId = some m.id ∧
        decideAction store m = RemoteWrite.update r.handle (propsFor m)) ∧
    (¬ hasId store m.id → decideAction store m = RemoteWrite.create (propsFor m)) ∧
    (∀ p, decideAction store m = RemoteWrite.create p → ¬ hasId store m.id) ∧
    (∀ h p, decideAction store m = RemoteWrite.update h p →
      ∃ r ∈ store, r.memberId = some m.id ∧ r.handle = h) := by
  by_cases hm : hasId store m.id
  · obtain ⟨r, hr, hid, hq⟩ := queryByMemberId_found hm
    have hdec : decideAction store m = RemoteWrite.update r.handle (propsFor m) := by
      unfold decideAction
      rw [hq]
    refine ⟨fun _ => ⟨r, hr, hid, hdec⟩, fun h => absurd hm h, ?_, ?_⟩
    · intro p hp
      rw [hdec] at hp
      exact absurd hp (by simp)
    · intro h p hp
      rw [hdec] at hp
      injection hp with h1 _
      exact ⟨r, hr, hid, h1⟩
  · have hdec : decideAction store m = RemoteWrite.create (propsFor m) := by
      unfold decideAction
      rw [queryByMemberId_nil hm]
    refine ⟨fun h => absurd h hm, fun _ => hdec, fun _ _ => hm, ?_⟩
    intro h p hp
    rw [hdec] at hp
    exact absurd hp (by simp)

/-- Witness for C1: a store holding "M1" yields an update at its handle;
the empty store yields a create. -/
theorem writePhase_update_iff_match_witness :
    (∃ r ∈ [RemoteRecord.mk 7 (some "M1") none none], r.memberId = some "M1" ∧
      decideAction [RemoteRecord.mk 7 (some "M1") none none] ⟨"M1", "Alice", ""⟩ =
        RemoteWrite.update r.handle (propsFor ⟨"M1", "Alice", ""⟩)) ∧
    decideAction [] ⟨"M1", "Alice", ""⟩ =
      RemoteWrite.create (propsFor ⟨"M1", "Alice", ""⟩) := by
  constructor
  · exact (writePhase_update_iff_match [RemoteRecord.mk 7 (some "M1") none none]
      ⟨"M1", "Alice", ""⟩).1 ⟨RemoteRecord.mk 7 (some "M1") none none, by simp, rfl⟩
  · exact (writePhase_update_iff_match [] ⟨"M1", "Alice", ""⟩).2.1 (by simp [hasId])

theorem cleanPhoneNumber_empty_or_canonical (raw : String) :
    cleanPhoneNumber raw = "" ∨ isCanonicalPhone (cleanPhoneNumber raw) = true := by
  unfold cleanPhoneNumber
  dsimp only
  repeat' split
  all_goals first
    | (left; rfl)
    | (right; assumption)

/-- C3: every constructed member record has a phone that is either empty
or `+62` followed by 8–13 digits, for every possible raw phone input:
this holds of the normalizer `cleanPhoneNumber` on all inputs and hence
of every record the heuristic builder emits. -/
theorem memberRecord_phone_invariant :
    (∀ raw : String, cleanPhoneNumber raw = "" ∨ isCanonicalPhone (cleanPhoneNumber raw) = true) ∧
    (∀ col i cols r, buildRow col i cols = some r →
      r.phone = "" ∨ isCanonicalPhone r.phone = true) := by
  refine ⟨cleanPhoneNumber_empty_or_canonical, ?_⟩
  intro col i cols r h
  unfold buildRow at h
  split at h
  · exact absurd h (by simp)
  · dsimp only at h
    split at h
    · exact absurd h (by simp)
    · injection h with h1
      rw [← h1]
      exact cleanPhoneNumber_empty_or_canonical _

/-- Witness for C3: a concrete heuristic row yields a record whose phone
satisfies the invariant. -/
theorem memberRecord_phone_invariant_witness :
    buildRow ⟨some 0, none, some 1, some 2, some 3⟩ 1 ["M1", "John", "Doe", "081234567890"] =
      some ⟨"M1", "John Doe", "+6281234567890"⟩ ∧
    ("+6281234567890" = "" ∨ isCanonicalPhone "+6281234567890" = true) := by
  refine ⟨by decide, ?_⟩
  exact memberRecord_phone_invariant.2 ⟨some 0, none, some 1, some 2, some 3⟩ 1
    ["M1", "John", "Doe", "081234567890"] ⟨"M1", "John Doe", "+6281234567890"⟩ (by decide)

/-- Counterexample to C4: in the heuristic builder (src/unnamed/part_000,
lines 364–399), a body row whose identifier column is empty is NOT
skipped: the identifier is replaced by `MEM<i>` and a record is emitted. -/
theorem buildRow_empty_id_not_skipped :
    buildRow (buildColMap ["MembershipID", "MTitle", "X", "FirstName", "LastName", "Telephone"]) 1
      ["", "", "", "John", "Doe", ""] = some ⟨"MEM1", "John Doe", ""⟩ := by
  decide

/-- C4 (amended): the positional builder (src/index.js, lines 20–45)
skips a row whose identifier cell trims to empty; the heuristic builder
(src/unnamed/part_000) instead substitutes the synthetic identifier
`MEM<i>` when the identifier cell is empty or missing, and keeps the row
whenever its composed name is non-empty. -/
theorem builder_empty_id_behavior :
    (∀ cols, jsTrim ((cols.get? 0).getD "") = "" → buildRowPositional cols = none) ∧
    (∀ col i cols r, (col.id.bind (fun ci => cols.get? ci)).getD "" = "" →
      buildRow col i cols = some r → r.id = "MEM" ++ toString i) := by
  constructor
  · intro cols hid
    unfold buildRowPositional
    split
    · rfl
    · dsimp only
      rw [hid]
      simp
  · intro col i cols r hid h
    unfold buildRow at h
    split at h
    · exact absurd h (by simp)
    · have hidv :
          (match col.id with
            | some ci =>
                match cols.get? ci with
                | some v => if truthy v then jsTrim v else "MEM" ++ toString i
                | none => "MEM" ++ toString i
            | none => "MEM" ++ toString i) = "MEM" ++ toString i := by
        rcases hcid : col.id with _ | ci
        · rfl
        · simp only [hcid, Option.some_bind] at hid
          rcases hcell : cols.get? ci with _ | v
          · dsimp only
            rw [hcell]
          · rw [hcell] at hid
            have hv : v = "" := by simpa using hid
            dsimp only
            rw [hcell, hv]
            simp [truthy]
      rw [hidv] at h
      dsimp only at h
      split at h
      · exact absurd h (by simp)
      · injection h with h1
        rw [← h1]

/-- Witness for C4 (amended): a positional row with blank id is dropped;
a heuristic row with empty id cell gets the synthetic id `MEM2`. -/
theorem builder_empty_id_behavior_witness :
    buildRowPositional ["", "a", "b", "c", "d"] = none ∧
    (MemberRecord.mk "MEM2" "John Doe" "").id = "MEM" ++ toString 2 := by
  constructor
  · exact builder_empty_id_behavior.1 ["", "a", "b", "c", "d"] (by decide)
  · exact builder_empty_id_behavior.2 ⟨some 0, none, some 1, some 2, none⟩ 2
      ["", "John", "Doe", "x"] ⟨"MEM2", "John Doe", ""⟩ (by decide) (by decide)

theorem withRetryGo_attempts {α : Type} (fn : Nat → Except String α) :
    ∀ n i delays, 5 - i = n →
      numAttempts (withRetryGo fn i delays) ≤ delays.length + (5 - i) := by
  intro n
  induction n with
  | zero =>
      intro i delays h
      rw [withRetryGo]
      have : ¬ i < 5 := by omega
      simp [this, numAttempts]
  | succ n ih =>
      intro i delays h
      rw [withRetryGo]
      have hlt : i < 5 := by omega
      simp only [hlt, if_true]
      rcases hfn : fn i with e | a
      · dsimp only
        have := ih (i + 1) (delays ++ [1000 * (i + 1)]) (by omega)
        simp only [List.length_append, List.length_cons, List.length_nil] at this
        omega
      · dsimp only
        simp [numAttempts]
        omega

/-- C8: the retry wrapper makes at most 5 attempts; when every attempt
fails it returns null after waiting 1s, 2s, 3s, 4s, 5s; and in the write
loop a row whose update/create call came back null is counted as failed
while processing continues with the remaining rows. -/
theorem withRetry_policy :
    (∀ (α : Type) (fn : Nat → Except String α), numAttempts (withRetry fn) ≤ 5) ∧
    (∀ (α : Type) (fn : Nat → Except String α),
      (∀ i, i < 5 → ∃ e, fn i = Except.error e) →
      withRetry fn = (none, [1000, 2000, 3000, 4000, 5000])) ∧
    (∀ c ops rest, ops.writeOutcome = none →
      processRows c (ops :: rest) = processRows { c with failed := c.failed + 1 } rest) := by
  refine ⟨?_, ?_, ?_⟩
  · intro α fn
    have := withRetryGo_attempts fn 5 0 [] (by omega)
    simpa [withRetry] using this
  · intro α fn h
    obtain ⟨e0, h0⟩ := h 0 (by omega)
    obtain ⟨e1, h1⟩ := h 1 (by omega)
    obtain ⟨e2, h2⟩ := h 2 (by omega)
    obtain ⟨e3, h3⟩ := h 3 (by omega)
    obtain ⟨e4, h4⟩ := h 4 (by omega)
    unfold withRetry
    rw [withRetryGo]
    simp only [show (0:Nat) < 5 by omega, if_true, h0]
    rw [withRetryGo]
    simp only [show (1:Nat) < 5 by omega, if_true, h1]
    rw [withRetryGo]
    simp only [show (2:Nat) < 5 by omega, if_true, h2]
    rw [withRetryGo]
    simp only [show (3:Nat) < 5 by omega, if_true, h3]
    rw [withRetryGo]
    simp only [show (4:Nat) < 5 by omega, if_true, h4]
    rw [withRetryGo]
    norm_num
  · intro c ops rest h
    have hrow : processRow c ops = { c with failed := c.failed + 1 } := by
      unfold processRow
      rcases hq : ops.queryOutcome with _ | rs
      · simp [h]
      · simp [h]
    unfold processRows
    rw [List.foldl_cons, hrow]

/-- Witness for C8: a call that always fails is abandoned after five
attempts with the linear backoff delays, and a failing row adds one to
the failure count while the next row is still processed. -/
theorem withRetry_policy_witness :
    withRetry (fun _ => (Except.error "ECONNRESET" : Except String Unit)) =
      (none, [1000, 2000, 3000, 4000, 5000]) ∧
    processRows ⟨0, 0, 0⟩ [⟨some [], none⟩, ⟨some [], some ()⟩] =
      processRows ⟨0, 0, 1⟩ [⟨some [], some ()⟩] := by
  constructor
  · exact withRetry_policy.2.1 Unit _ (fun i _ => ⟨"ECONNRESET", rfl⟩)
  · exact withRetry_policy.2.2 ⟨0, 0, 0⟩ ⟨some [], none⟩ [⟨some [], some ()⟩] rfl

theorem intercalate_go_eq (sep : String) :
    ∀ (as : List String) (acc : String),
      String.intercalate.go acc sep as = acc ++ newlineJoinRest sep as := by
  intro as
  induction as with
  | nil => intro acc; simp [String.intercalate.go, newlineJoinRest]
  | cons a as ih =>
      intro acc
      rw [String.intercalate.go, ih, newlineJoinRest]
      simp [String.append_assoc]

theorem intercalate_eq_newlineJoin (l : List String) :
    String.intercalate "\n" l = newlineJoin l := by
  cases l with
  | nil => rfl
  | cons a as => rw [String.intercalate, intercalate_go_eq, newlineJoin]

/-- Counterexample to C9: with two phone-bearing records the export joins
the two cards with a single newline, not with blank-line separation; the
payload contains no blank line at all. -/
theorem vcf_not_blankLine_separated :
    vcfOf [⟨"M1", "A", "+6281234567890"⟩, ⟨"M2", "B", "+6281234567891"⟩] ≠
      blankLineJoin (vcfCards [⟨"M1", "A", "+6281234567890"⟩, ⟨"M2", "B", "+6281234567891"⟩]) ∧
    hasSubstr (vcfOf [⟨"M1", "A", "+6281234567890"⟩, ⟨"M2", "B", "+6281234567891"⟩]).data
      ['\n', '\n'] = false := by
  refine ⟨by decide, by decide⟩

/-- C9 (amended): the export builds exactly one card per record with
non-empty phone and joins the cards with a single newline separator (not
a blank line); when zero records qualify, no email call is made. -/
theorem vcf_single_newline_export (rows : List MemberRecord) (mailgunKey : Bool) :
    vcfOf rows = newlineJoin (vcfCards rows) ∧
    (vcfCards rows).length = (rows.filter (fun r => truthy r.phone)).length ∧
    (rows.filter (fun r => truthy r.phone) = [] → sendsEmail rows mailgunKey = false) := by
  refine ⟨intercalate_eq_newlineJoin _, by simp [vcfCards], ?_⟩
  intro h
  simp [sendsEmail, h]

/-- Witness for C9 (amended): a roster whose only record has no phone
sends no email. -/
theorem vcf_single_newline_export_witness :
    ([MemberRecord.mk "M1" "A" ""].filter (fun r => truthy r.phone) = []) ∧
    sendsEmail [MemberRecord.mk "M1" "A" ""] true = false := by
  refine ⟨by decide, ?_⟩
  exact (vcf_single_newline_export [MemberRecord.mk "M1" "A" ""] true).2.2 (by decide)

theorem storeHandle_inj {store : List RemoteRecord}
    (hnd : (store.map (fun r => r.handle)).Nodup)
    {r r' : RemoteRecord} (hr : r ∈ store) (hr' : r' ∈ store)
    (hh : r.handle = r'.handle) : r = r' :=
  List.inj_on_of_nodup_map hnd hr hr' hh

theorem applyWrite_wf (store : List RemoteRecord) (next : Nat) (a : RemoteWrite)
    (h : StoreWF store next) :
    StoreWF (applyWrite store next a).1 (applyWrite store next a).2 := by
  obtain ⟨hb, hnd⟩ := h
  cases a with
  | update hh p =>
      refine ⟨?_, ?_⟩
      · intro r hr
        simp only [applyWrite, List.mem_map] at hr
        obtain ⟨r0, hr0, hr0e⟩ := hr
        have hhandle : r.handle = r0.handle := by
          rw [← hr0e]
          by_cases hc : r0.handle = hh <;> simp [hc, updatedWith]
        rw [hhandle]
        exact hb r0 hr0
      · simp only [applyWrite, List.map_map]
        have heq : store.map ((fun r => r.handle) ∘
            (fun r => if r.handle = hh then updatedWith r p else r)) =
            store.map (fun r => r.handle) := by
          apply List.map_congr_left
          intro r0 _
          by_cases hc : r0.handle = hh <;> simp [hc, updatedWith]
        rw [heq]
        exact hnd
  | create p =>
      refine ⟨?_, ?_⟩
      · intro r hr
        simp only [applyWrite, List.mem_append, List.mem_singleton] at hr
        rcases hr with hr | rfl
        · exact Nat.lt_succ_of_lt (hb r hr)
        · exact Nat.lt_succ_self next
      · simp only [applyWrite, List.map_append, List.map_cons, List.map_nil]
        rw [List.nodup_append]
        refine ⟨hnd, List.nodup_singleton _, ?_⟩
        intro x hx hx'
        simp only [List.mem_singleton] at hx'
        obtain ⟨r0, hr0, hr0e⟩ := List.mem_map.mp hx
        have hlt := hb r0 hr0
        rw [hr0e, hx'] at hlt
        exact lt_irrefl _ hlt

theorem step_preserves_hasId (store : List RemoteRecord) (next : Nat) (m : MemberRecord)
    (hwf : StoreWF store next) :
    (∀ x, hasId store x → hasId (applyWrite store next (decideAction store m)).1 x) ∧
    hasId (applyWrite store next (decideAction store m)).1 m.id := by
  by_cases hm : hasId store m.id
  · obtain ⟨r0, hr0, hid0, hq⟩ := queryByMemberId_found hm
    have hdec : decideAction store m = RemoteWrite.update r0.handle (propsFor m) := by
      unfold decideAction
      rw [hq]
    rw [hdec]
    constructor
    · rintro x ⟨r, hr, hx⟩
      by_cases hc : r.handle = r0.handle
      · have hrr : r = r0 := storeHandle_inj hwf.2 hr hr0 hc
        subst hrr
        have hxid : x = m.id := by
          rw [hx] at hid0
          exact Option.some_inj.mp hid0
        refine ⟨updatedWith r (propsFor m), ?_, ?_⟩
        · simp only [applyWrite]
          exact List.mem_map.mpr ⟨r, hr, by simp [hc]⟩
        · simp [updatedWith, propsFor, hxid]
      · refine ⟨r, ?_, hx⟩
        simp only [applyWrite]
        exact List.mem_map.mpr ⟨r, hr, by simp [hc]⟩
    · refine ⟨updatedWith r0 (propsFor m), ?_, ?_⟩
      · simp only [applyWrite]
        exact List.mem_map.mpr ⟨r0, hr0, by simp⟩
      · simp [updatedWith, propsFor]
  · have hdec : decideAction store m = RemoteWrite.create (propsFor m) := by
      unfold decideAction
      rw [queryByMemberId_nil hm]
    rw [hdec]
    constructor
    · rintro x ⟨r, hr, hx⟩
      exact ⟨r, by simp [applyWrite, hr], hx⟩
    · exact ⟨⟨next, some (propsFor m).memberId, some (propsFor m).name, (propsFor m).phone⟩,
        by simp [applyWrite], rfl⟩

theorem runWrites_spec : ∀ (rows : List MemberRecord) (store : List RemoteRecord) (next : Nat),
    StoreWF store next →
    StoreWF (runWrites rows store next).1 (runWrites rows store next).2.1 ∧
    (∀ x, hasId store x → hasId (runWrites rows store next).1 x) ∧
    (∀ m ∈ rows, hasId (runWrites rows store next).1 m.id) := by
  intro rows
  induction rows with
  | nil =>
      intro store next h
      exact ⟨h, fun _ hx => hx, fun m hm => absurd hm (List.not_mem_nil m)⟩
  | cons m rest ih =>
      intro store next h
      have hwfs := applyWrite_wf store next (decideAction store m) h
      have hstep := step_preserves_hasId store next m h
      obtain ⟨ihwf, ihmono, ihall⟩ := ih (applyWrite store next (decideAction store m)).1
        (applyWrite store next (decideAction store m)).2 hwfs
      refine ⟨ihwf, ?_, ?_⟩
      · intro x hx
        exact ihmono x (hstep.1 x hx)
      · intro m' hm'
        rcases List.mem_cons.mp hm' with rfl | hm'
        · exact ihmono m'.id hstep.2
        · exact ihall m' hm'

theorem runWrites_no_creates : ∀ (rows : List MemberRecord) (store : List RemoteRecord)
    (next : Nat), StoreWF store next → (∀ m ∈ rows, hasId store m.id) →
    (runWrites rows store next).2.2 = 0 := by
  intro rows
  induction rows with
  | nil => intro store next _ _; rfl
  | cons m rest ih =>
      intro store next hwf hall
      have hm : hasId store m.id := hall m (List.mem_cons_self m rest)
      have hdec : createsOf (decideAction store m) = 0 := by
        obtain ⟨r0, _, _, hq⟩ := queryByMemberId_found hm
        unfold decideAction
        rw [hq]
        rfl
      have hwfs := applyWrite_wf store next (decideAction store m) hwf
      have hstep := step_preserves_hasId store next m hwf
      have hrest : ∀ m' ∈ rest,
          hasId (applyWrite store next (decideAction store m)).1 m'.id :=
        fun m' hm' => hstep.1 m'.id (hall m' (List.mem_cons_of_mem m hm'))
      have hrec := ih (applyWrite store next (decideAction store m)).1
        (applyWrite store next (decideAction store m)).2 hwfs hrest
      have hsplit : (runWrites (m :: rest) store next).2.2 =
          createsOf (decideAction store m) +
            (runWrites rest (applyWrite store next (decideAction store m)).1
              (applyWrite store next (decideAction store m)).2).2.2 := rfl
      rw [hsplit, hdec, hrec]

/-- C2: after a successful first reconciliation run, a second run with
the same member rows against the resulting remote store performs zero
create calls — every row's id is then found, so every row is an update. -/
theorem secondRun_zero_creates (rows : List MemberRecord) (store : List RemoteRecord)
    (next : Nat) (hwf : StoreWF store next) :
    (runWrites rows (runWrites rows store next).1 (runWrites rows store next).2.1).2.2 = 0 := by
  obtain ⟨hwf1, _, hall⟩ := runWrites_spec rows store next hwf
  exact runWrites_no_creates rows _ _ hwf1 hall

/-- Witness for C2: starting from the empty store, the second run over a
one-row roster performs zero creates. -/
theorem secondRun_zero_creates_witness :
    StoreWF [] 0 ∧
    (runWrites [MemberRecord.mk "M1" "N" ""] (runWrites [MemberRecord.mk "M1" "N" ""] [] 0).1
      (runWrites [MemberRecord.mk "M1" "N" ""] [] 0).2.1).2.2 = 0 := by
  have hwf : StoreWF [] 0 := ⟨fun r hr => absurd hr (List.not_mem_nil r), List.nodup_nil⟩
  exact ⟨hwf, secondRun_zero_creates _ _ _ hwf⟩

theorem dropWhile_head?_not {p : Char → Bool} : ∀ (l : List Char) (c : Char),
    (l.dropWhile p).head? = some c → p c = false := by
  intro l
  induction l with
  | nil => intro c h; simp [List.dropWhile] at h
  | cons a t ih =>
      intro c h
      rw [List.dropWhile_cons] at h
      split at h
      · exact ih c h
      · next hpa =>
          injection h with h1
          rw [← h1]
          cases hb : p a
          · rfl
          · exact absurd hb hpa

theorem dropWhile_getLast?_of_ne_nil {p : Char → Bool} : ∀ (l : List Char),
    l.dropWhile p ≠ [] → (l.dropWhile p).getLast? = l.getLast? := by
  intro l
  induction l with
  | nil => intro h; simp [List.dropWhile] at h
  | cons a t ih =>
      intro h
      rw [List.dropWhile_cons] at h ⊢
      split at h
      · next hpa =>
          simp only [hpa, if_true]
          rw [ih h]
          rcases t with _ | ⟨b, t2⟩
          · simp [List.dropWhile] at h
          · exact List.getLast?_cons_cons.symm
      · next hpa =>
          simp [hpa]

theorem jsTrim_head_not_ws (s : String) (c : Char)
    (h : (jsTrim s).data.head? = some c) : isWS c = false := by
  unfold jsTrim at h
  rw [List.head?_reverse] at h
  have hne : (((s.data.dropWhile isWS).reverse).dropWhile isWS) ≠ [] := by
    intro h0
    rw [h0] at h
    simp at h
  rw [dropWhile_getLast?_of_ne_nil _ hne, List.getLast?_reverse] at h
  exact dropWhile_head?_not _ _ h

theorem jsTrim_getLast_not_ws (s : String) (c : Char)
    (h : (jsTrim s).data.getLast? = some c) : isWS c = false := by
  unfold jsTrim at h
  rw [List.getLast?_reverse] at h
  exact dropWhile_head?_not _ _ h

theorem parseCharsGo_noQuote : ∀ (cs : List Char) (st : CsvState), st.inQuote = true →
    (∀ c ∈ cs, c ≠ '"') → parseCharsGo cs st = ⟨st.result, ⟨st.field.data ++ cs⟩, true⟩ := by
  intro cs
  induction cs with
  | nil =>
      intro st h _
      obtain ⟨res, fld, q⟩ := st
      simp only at h
      subst h
      rw [List.append_nil]
      rfl
  | cons c cs ih =>
      intro st h hq
      have hc : c ≠ '"' := hq c (List.mem_cons_self _ _)
      by_cases hcm : c = ','
      · subst hcm
        rw [parseCharsGo.eq_5, if_pos h]
        rw [ih { st with field := st.field.push ',' } h
          (fun c hc' => hq c (List.mem_cons_of_mem _ hc'))]
        simp [String.push, List.append_assoc]
      · rw [parseCharsGo.eq_6 _ _ _ (fun _ h' _ => hc h') (fun h' => hc h') (fun h' => hcm h')]
        rw [ih { st with field := st.field.push c } h
          (fun c hc' => hq c (List.mem_cons_of_mem _ hc'))]
        simp [String.push, List.append_assoc]

theorem parseCharsGo_openQuote (st : CsvState) (rest : List Char)
    (hst : st.inQuote = false) (hq : ∀ c ∈ rest, c ≠ '"') :
    parseCharsGo ('"' :: rest) st = ⟨st.result, ⟨st.field.data ++ rest⟩, true⟩ := by
  rcases rest with _ | ⟨c1, r1⟩
  · rw [parseCharsGo.eq_4 st [] (fun r3 h' => List.noConfusion h')]
    rw [parseCharsGo.eq_1]
    obtain ⟨res, fld, q⟩ := st
    simp only at hst
    subst hst
    rw [List.append_nil]
    rfl
  · have hc1 : c1 ≠ '"' := hq c1 (List.mem_cons_self _ _)
    rw [parseCharsGo.eq_4 st (c1 :: r1)
      (fun r3 h' => by injection h' with h1 h2; exact hc1 h1)]
    have hq' : ({ st with inQuote := !st.inQuote } : CsvState).inQuote = true := by
      simp [hst]
    rw [parseCharsGo_noQuote _ _ hq' hq]

theorem parseCharsGo_doubleComma (st : CsvState) (suf : List Char) (hst : st.inQuote = false) :
    parseCharsGo (',' :: ',' :: suf) st =
      parseCharsGo suf ⟨st.result ++ [st.field, ""], "", false⟩ := by
  rw [parseCharsGo.eq_5]
  simp only [hst, Bool.false_eq_true, if_false]
  rw [parseCharsGo.eq_5]
  simp only [hst, Bool.false_eq_true, if_false]
  simp [List.append_assoc]

/-- C7: every field of the parser output is free of leading and trailing
whitespace; from any scanner position outside quotes an unterminated
opening quote makes the entire remainder of the line flow into the
current field with no error (in particular a line `"rest` with no further
quote parses to that single field); and two consecutive commas outside
quotes emit an empty-string field between them (so `a,,b` parses to
`["a", "", "b"]`). -/
theorem parseCSVLine_trim_quote_delimiters :
    (∀ line : String, ∀ f ∈ parseCSVLine line, ∀ c : Char,
      (f.data.head? = some c → isWS c = false) ∧
      (f.data.getLast? = some c → isWS c = false)) ∧
    (∀ (st : CsvState) (rest : List Char), st.inQuote = false → (∀ c ∈ rest, c ≠ '"') →
      parseCharsGo ('"' :: rest) st = ⟨st.result, ⟨st.field.data ++ rest⟩, true⟩) ∧
    (∀ rest : String, (∀ c ∈ rest.data, c ≠ '"') →
      parseCSVLine ("\"" ++ rest) = [jsTrim rest]) ∧
    (∀ (st : CsvState) (suf : List Char), st.inQuote = false →
      parseCharsGo (',' :: ',' :: suf) st =
        parseCharsGo suf ⟨st.result ++ [st.field, ""], "", false⟩) ∧
    parseCSVLine "a,,b" = ["a", "", "b"] := by
  refine ⟨?_, parseCharsGo_openQuote, ?_, parseCharsGo_doubleComma, by decide⟩
  · intro line f hf c
    simp only [parseCSVLine, List.mem_map] at hf
    obtain ⟨g, _, rfl⟩ := hf
    exact ⟨jsTrim_head_not_ws g c, jsTrim_getLast_not_ws g c⟩
  · intro rest hq
    unfold parseCSVLine
    have hdata : ("\"" ++ rest).data = '"' :: rest.data := by
      simp [String.data_append]
    rw [hdata, parseCharsGo_openQuote _ _ rfl hq]
    obtain ⟨l⟩ := rest
    simp

/-- Witness for C7: the trimming, unterminated-quote and consecutive-
delimiter properties at concrete inputs. -/
theorem parseCSVLine_trim_quote_delimiters_witness :
    isWS 'a' = false ∧
    parseCharsGo ('"' :: "bc".data) ⟨[], "", false⟩ = ⟨[], ⟨"".data ++ "bc".data⟩, true⟩ ∧
    parseCSVLine ("\"" ++ "abc,def") = [jsTrim "abc,def"] ∧
    parseCharsGo (',' :: ',' :: []) ⟨[], "f", false⟩ =
      parseCharsGo [] ⟨[] ++ ["f", ""], "", false⟩ := by
  refine ⟨?_, ?_, ?_, ?_⟩
  · exact (parseCSVLine_trim_quote_delimiters.1 " a ,b" "a" (by decide) 'a').1 (by decide)
  · exact parseCSVLine_trim_quote_delimiters.2.1 ⟨[], "", false⟩ "bc".data rfl (by decide)
  · exact parseCSVLine_trim_quote_delimiters.2.2.1 "abc,def" (by decide)
  · exact parseCSVLine_trim_quote_delimiters.2.2.2.1 ⟨[], "f", false⟩ [] rfl

end Waha
